import Mathlib

/- Verification development for the GoldCore competitor price scraper
   (src/streamlit_app.py). The price/quantity extraction heuristic is
   shallowly embedded: strings are lists of characters, monetary amounts
   are rationals, a fetched page is either a fetch/parse failure (none)
   or a parsed document given by its DOM elements together with the
   whitespace-collapsed visible text. -/

/-- Whitespace characters recognised by the regex class backslash-s
    (ASCII fragment). -/
def pySpace (c : Char) : Bool :=
  c = ' ' || c = '\t' || c = '\n' || c = '\r' || c = '\x0b' || c = '\x0c'

/-- Lower-case a list of characters, as str.lower does on ASCII letters. -/
def lowerList (s : List Char) : List Char := s.map Char.toLower

/-- Substring test, as the Python expression needle in hay. -/
def containsTok (needle : List Char) : List Char → Bool
  | [] => needle.isEmpty
  | c :: rest => needle.isPrefixOf (c :: rest) || containsTok needle rest

/-- Numeric value of a digit string, as Python int on a digit-only string. -/
def digitsToNat (s : List Char) : Nat :=
  s.foldl (fun n c => n * 10 + (c.toNat - '0'.toNat)) 0

/-- Value of a captured price group, mirroring
    float(match.group(1).replace(",", "")): commas are removed, the
    integer part and the decimal part (after the dot) are read in base 10. -/
def parseAmount (s : List Char) : ℚ :=
  let t := s.filter (fun c => c ≠ ',')
  let ip := t.takeWhile (fun c => c ≠ '.')
  match t.dropWhile (fun c => c ≠ '.') with
  | [] => (digitsToNat ip : ℚ)
  | _ :: fp => (digitsToNat ip : ℚ) + (digitsToNat fp : ℚ) / (10 : ℚ) ^ fp.length

/- ---------------- Quantity extractor (extract_quantity) ---------------- -/

/-- Unit words of the first quantity pattern: a match needs one of
    coin (with optional s), pcs, pieces, units after the digits. -/
def unitWords : List (List Char) :=
  [['c','o','i','n'], ['p','c','s'], ['p','i','e','c','e','s'], ['u','n','i','t','s']]

/-- Attempt of quantity pattern 1 at the start of the suffix s:
    one to three digits, optional whitespace, then a unit word
    (case-insensitive). Returns the captured digit group. -/
def matchQty1At (s : List Char) : Option (List Char) :=
  let ds := (s.takeWhile Char.isDigit).take 3
  if ds.isEmpty then none
  else
    let rest := (s.drop ds.length).dropWhile pySpace
    if unitWords.any (fun w => w.isPrefixOf (lowerList rest)) then some ds else none

/-- Packaging words of the second quantity pattern, in alternation order. -/
def packWords : List (List Char) :=
  [['p','a','c','k'], ['t','u','b','e'], ['b','o','x'],
   ['m','o','n','s','t','e','r',' ','b','o','x'], ['r','o','l','l']]

/-- Attempt of quantity pattern 2 at the start of the suffix s: a packaging
    word, then at most ten non-digit characters, then a capture of one to
    three digits (case-insensitive). -/
def matchQty2At (s : List Char) : Option (List Char) :=
  match packWords.findSome?
      (fun w => if w.isPrefixOf (lowerList s) then some w.length else none) with
  | none => none
  | some n =>
    let rest := s.drop n
    let run := rest.takeWhile (fun c => !c.isDigit)
    if run.length ≤ 10 then
      let ds := ((rest.drop run.length).takeWhile Char.isDigit).take 3
      if ds.isEmpty then none else some ds
    else none

/-- Attempt of quantity pattern 3 at the start of the suffix s: the letter x,
    an optional single whitespace, then a capture of one to three digits. -/
def matchQty3At : List Char → Option (List Char)
  | [] => none
  | c :: rest =>
    if Char.toLower c = 'x' then
      let rest2 :=
        match rest with
        | d :: tail => if pySpace d then tail else rest
        | [] => rest
      let ds := (rest2.takeWhile Char.isDigit).take 3
      if ds.isEmpty then none else some ds
    else none

/-- Leftmost search of re.search: try the matcher at every suffix, left to
    right, returning the first capture. The fuel is the length of the text. -/
def searchCapture (f : List Char → Option (List Char)) : Nat → List Char → Option (List Char)
  | 0, s => f s
  | fuel + 1, s =>
    match f s with
    | some r => some r
    | none =>
      match s with
      | [] => none
      | _ :: t => searchCapture f fuel t

/-- Loop body of extract_quantity over the remaining patterns: the first
    pattern whose leftmost match captures a value strictly between 1 and
    1000 wins; otherwise the next pattern is tried; the default is 1. -/
def extractQuantityGo (text : List Char) : List (List Char → Option (List Char)) → Nat
  | [] => 1
  | f :: rest =>
    match searchCapture f text.length text with
    | some ds =>
      if 1 < digitsToNat ds ∧ digitsToNat ds < 1000 then digitsToNat ds
      else extractQuantityGo text rest
    | none => extractQuantityGo text rest

/-- Embedding of extract_quantity (src/streamlit_app.py lines 11-26). -/
def extract_quantity (text : List Char) : Nat :=
  extractQuantityGo text [matchQty1At, matchQty2At, matchQty3At]

/- ---------------- Currency-amount pattern ---------------- -/

/-- Take exactly k leading digits. -/
def takeExactDigits : Nat → List Char → Option (List Char × List Char)
  | 0, s => some ([], s)
  | _ + 1, [] => none
  | k + 1, c :: s =>
    if c.isDigit then
      match takeExactDigits k s with
      | none => none
      | some (d, r) => some (c :: d, r)
    else none

/-- Greedy repetition of comma-plus-three-digits groups (fuel-indexed). -/
def commaGroupsF : Nat → List Char → List Char × List Char
  | 0, s => ([], s)
  | fuel + 1, s =>
    match s with
    | c0 :: a :: b :: c :: rest =>
      if c0 = ',' && a.isDigit && b.isDigit && c.isDigit then
        let p := commaGroupsF fuel rest
        (c0 :: a :: b :: c :: p.1, p.2)
      else ([], s)
    | _ => ([], s)

/-- Greedy repetition of comma-plus-three-digits groups. -/
def commaGroups (s : List Char) : List Char × List Char := commaGroupsF s.length s

/-- First alternative of the amount group with a fixed leading digit count k:
    k digits then at least one comma group. -/
def altAWith (k : Nat) (s : List Char) : Option (List Char × List Char) :=
  match takeExactDigits k s with
  | none => none
  | some (d, r) =>
    match commaGroups r with
    | ([], _) => none
    | (g, r2) => some (d ++ g, r2)

/-- First alternative of the amount group: one to three digits followed by
    thousands groups, trying the greedy digit count first. -/
def matchAltA (s : List Char) : Option (List Char × List Char) :=
  altAWith 3 s <|> altAWith 2 s <|> altAWith 1 s

/-- Second alternative of the amount group: a maximal nonempty digit run. -/
def matchAltB (s : List Char) : Option (List Char × List Char) :=
  let ds := s.takeWhile Char.isDigit
  if ds.isEmpty then none else some (ds, s.drop ds.length)

/-- Optional decimal part: a dot followed by exactly two digits. -/
def matchDecimals (s : List Char) : List Char × List Char :=
  match s with
  | a :: b :: c :: rest =>
    if a = '.' && b.isDigit && c.isDigit then ([a, b, c], rest) else ([], s)
  | _ => ([], s)

/-- The captured amount group: one of the two alternatives then the optional
    decimal part. Returns the capture and the rest of the input. -/
def matchAmount (s : List Char) : Option (List Char × List Char) :=
  match matchAltA s <|> matchAltB s with
  | none => none
  | some (num, r) =>
    match matchDecimals r with
    | (dec, r2) => some (num ++ dec, r2)

/-- Attempt of the full currency pattern at the start of the suffix s: the
    pound sign, greedy whitespace, then the amount group. -/
def matchPriceAt (s : List Char) : Option (List Char × List Char) :=
  match s with
  | c :: rest => if c = '£' then matchAmount (rest.dropWhile pySpace) else none
  | [] => none

/-- Capture of the currency pattern at the start of the suffix s. -/
def matchPriceCapAt (s : List Char) : Option (List Char) :=
  (matchPriceAt s).map (fun pr => pr.1)

/-- First capture of the currency pattern anywhere in s (re.search). -/
def priceSearch (s : List Char) : Option (List Char) :=
  searchCapture matchPriceCapAt s.length s

/-- All non-overlapping matches of the currency pattern (re.finditer),
    with their start and end offsets and their captures. -/
def finditerPrice : Nat → List Char → Nat → List (Nat × Nat × List Char)
  | 0, _, _ => []
  | fuel + 1, s, i =>
    match matchPriceAt s with
    | some (cap, rest) =>
      let len := s.length - rest.length
      (i, i + len, cap) :: finditerPrice fuel rest (i + len)
    | none =>
      match s with
      | [] => []
      | _ :: t => finditerPrice fuel t (i + 1)

/- ---------------- Price/VAT extractor (extract_price_info) ---------------- -/

/-- A DOM element as the parser collaborator presents it: its class
    attribute text, its id attribute text (absent attributes are none)
    and its inner text. -/
structure Elem where
  cls : Option (List Char)
  idAttr : Option (List Char)
  text : List Char

/-- A successfully fetched and parsed page: its DOM elements and its
    whitespace-collapsed visible text. -/
structure Page where
  elems : List Elem
  text : List Char

/-- Case-insensitive regex filter re.compile("price", re.I) applied to an
    attribute value: the attribute must be present and contain the token. -/
def hasPriceToken (attr : Option (List Char)) : Bool :=
  match attr with
  | none => false
  | some v => containsTok ['p','r','i','c','e'] (lowerList v)

/-- The test of the literal token vat inside lower-cased text. -/
def containsVat (s : List Char) : Bool :=
  containsTok ['v','a','t'] (lowerList s)

/-- Structured-pass candidate of one element. BeautifulSoup find_all with
    an attribute dictionary requires every listed attribute filter to
    match, so both the class and the id attribute must contain the price
    token; the first currency match of the element text gives the amount
    and the VAT marker is the vat test on the whole element text. -/
def structCandOf (e : Elem) : Option (ℚ × Bool) :=
  if hasPriceToken e.cls && hasPriceToken e.idAttr then
    match priceSearch e.text with
    | some cap => some (parseAmount cap, containsVat e.text)
    | none => none
  else none

/-- Unstructured-pass candidate of one currency match in the page text:
    the VAT marker looks at a window of thirty characters on each side. -/
def unstructCandOf (text : List Char) (m : Nat × Nat × List Char) : ℚ × Bool :=
  let lo := m.1 - 30
  let hi := min (m.2.1 + 30) text.length
  let snippet := (text.drop lo).take (hi - lo)
  (parseAmount m.2.2, containsVat snippet)

/-- Candidate list of a parsed page: structured pass then unstructured pass
    (src/streamlit_app.py lines 40-54). -/
def candidatesOf (page : Page) : List (ℚ × Bool) :=
  page.elems.filterMap structCandOf ++
    (finditerPrice (page.text.length + 1) page.text 0).map (unstructCandOf page.text)

/-- Python max over a nonempty list (the empty case is never reached). -/
def listMax : List ℚ → ℚ
  | [] => 0
  | x :: xs => xs.foldl max x

/-- Python min over a nonempty list (the empty case is never reached). -/
def listMin : List ℚ → ℚ
  | [] => 0
  | x :: xs => xs.foldl min x

/-- Selection policy over the candidate list
    (src/streamlit_app.py lines 59-66). -/
def selectPrice (preferVat : Bool) (cs : List (ℚ × Bool)) : ℚ :=
  if preferVat then
    let vatPrices := (cs.filter (fun c => c.2)).map (fun c => c.1)
    if vatPrices.isEmpty then listMax (cs.map (fun c => c.1)) else listMax vatPrices
  else listMin (cs.map (fun c => c.1))

/-- Embedding of extract_price_info (src/streamlit_app.py lines 30-71).
    A fetch or parse failure is the none input; the catch-all except
    turns it into the pair of an absent price and quantity 1. -/
def extract_price_info (fetched : Option Page) (prefer_vat : Bool) : Option ℚ × Nat :=
  match fetched with
  | none => (none, 1)
  | some page =>
    let cands := candidatesOf page
    if cands.isEmpty then (none, 1)
    else (some (selectPrice prefer_vat cands), extract_quantity page.text)

/- ---------------- Per-unit normalizer ---------------- -/

/-- The per-unit division of extract_price_from_url
    (src/streamlit_app.py lines 76-81): absent stays absent, otherwise
    the price is divided by max(quantity, 1). -/
def perUnit (price : Option ℚ) (qty : Nat) : Option ℚ :=
  match price with
  | none => none
  | some p => some (p / ((max qty 1 : Nat) : ℚ))

/-- Embedding of extract_price_from_url (src/streamlit_app.py lines 74-81). -/
def extract_price_from_url (fetched : Option Page) (prefer_vat : Bool) : Option ℚ :=
  perUnit (extract_price_info fetched prefer_vat).1 (extract_price_info fetched prefer_vat).2

/- ---------------- Caller-side column reader ---------------- -/

/-- Embedding of the column processing loop (src/streamlit_app.py lines
    112-119): drop the empty cells, skip columns with fewer than two
    remaining cells, take the second remaining cell as the GoldCore URL
    and the later cells as competitor URLs. -/
def processColumn {α : Type} (cells : List (Option α)) : Option (α × List α) :=
  match cells.filterMap id with
  | _ :: gc :: comps => some (gc, comps)
  | _ => none

/-- Column reader as the specification words it: the first non-empty cell
    below the header is the reference URL, the later non-empty cells are
    the competitor URLs. -/
def specColumn {α : Type} (cells : List (Option α)) : Option (α × List α) :=
  match cells.filterMap id with
  | ref :: comps => some (ref, comps)
  | _ => none

/- ---------------- Spec-level predicates ---------------- -/

/-- The amounts of a candidate list. -/
def amounts (cs : List (ℚ × Bool)) : List ℚ := cs.map (fun c => c.1)

/-- The amounts of the candidates carrying the VAT marker. -/
def vatAmounts (cs : List (ℚ × Bool)) : List ℚ :=
  (cs.filter (fun c => c.2)).map (fun c => c.1)

/-- m is the maximum of the list l. -/
def isMaxOf (m : ℚ) (l : List ℚ) : Prop := m ∈ l ∧ ∀ x ∈ l, x ≤ m

/-- m is the minimum of the list l. -/
def isMinOf (m : ℚ) (l : List ℚ) : Prop := m ∈ l ∧ ∀ x ∈ l, m ≤ x

/-- Amount invariant of the spec: non-negative with at most two
    fractional digits. -/
def goodAmount (a : ℚ) : Prop := 0 ≤ a ∧ ∃ n : Nat, a = (n : ℚ) / 100

/- ---------------- Helper lemmas: folds of max and min ---------------- -/

lemma foldl_max_mem (xs : List ℚ) : ∀ x : ℚ, xs.foldl max x = x ∨ xs.foldl max x ∈ xs := by
  induction xs with
  | nil => intro x; exact Or.inl rfl
  | cons y ys ih =>
    intro x
    simp only [List.foldl_cons]
    rcases ih (max x y) with h | h
    · rcases max_choice x y with hm | hm
      · exact Or.inl (by rw [h, hm])
      · exact Or.inr (by rw [h, hm]; exact List.mem_cons_self y ys)
    · exact Or.inr (List.mem_cons_of_mem y h)

lemma le_foldl_max (xs : List ℚ) : ∀ x : ℚ, x ≤ xs.foldl max x := by
  induction xs with
  | nil => intro x; exact le_refl x
  | cons y ys ih =>
    intro x
    simp only [List.foldl_cons]
    exact le_trans (le_max_left x y) (ih (max x y))

lemma mem_le_foldl_max (xs : List ℚ) : ∀ x y : ℚ, y ∈ xs → y ≤ xs.foldl max x := by
  induction xs with
  | nil => intro x y h; cases h
  | cons z zs ih =>
    intro x y h
    simp only [List.foldl_cons]
    rcases List.mem_cons.mp h with rfl | h
    · exact le_trans (le_max_right x y) (le_foldl_max zs (max x y))
    · exact ih (max x z) y h

lemma foldl_min_mem (xs : List ℚ) : ∀ x : ℚ, xs.foldl min x = x ∨ xs.foldl min x ∈ xs := by
  induction xs with
  | nil => intro x; exact Or.inl rfl
  | cons y ys ih =>
    intro x
    simp only [List.foldl_cons]
    rcases ih (min x y) with h | h
    · rcases min_choice x y with hm | hm
      · exact Or.inl (by rw [h, hm])
      · exact Or.inr (by rw [h, hm]; exact List.mem_cons_self y ys)
    · exact Or.inr (List.mem_cons_of_mem y h)

lemma foldl_min_le (xs : List ℚ) : ∀ x : ℚ, xs.foldl min x ≤ x := by
  induction xs with
  | nil => intro x; exact le_refl x
  | cons y ys ih =>
    intro x
    simp only [List.foldl_cons]
    exact le_trans (ih (min x y)) (min_le_left x y)

lemma foldl_min_le_mem (xs : List ℚ) : ∀ x y : ℚ, y ∈ xs → xs.foldl min x ≤ y := by
  induction xs with
  | nil => intro x y h; cases h
  | cons z zs ih =>
    intro x y h
    simp only [List.foldl_cons]
    rcases List.mem_cons.mp h with rfl | h
    · exact le_trans (foldl_min_le zs (min x y)) (min_le_right x y)
    · exact ih (min x z) y h

lemma listMax_isMaxOf (l : List ℚ) (h : l ≠ []) : isMaxOf (listMax l) l := by
  cases l with
  | nil => exact absurd rfl h
  | cons x xs =>
    constructor
    · rcases foldl_max_mem xs x with hm | hm
      · rw [listMax, hm]; exact List.mem_cons_self x xs
      · exact List.mem_cons_of_mem x hm
    · intro y hy
      rcases List.mem_cons.mp hy with rfl | hy
      · exact le_foldl_max xs y
      · exact mem_le_foldl_max xs x y hy

lemma listMin_isMinOf (l : List ℚ) (h : l ≠ []) : isMinOf (listMin l) l := by
  cases l with
  | nil => exact absurd rfl h
  | cons x xs =>
    constructor
    · rcases foldl_min_mem xs x with hm | hm
      · rw [listMin, hm]; exact List.mem_cons_self x xs
      · exact List.mem_cons_of_mem x hm
    · intro y hy
      rcases List.mem_cons.mp hy with rfl | hy
      · exact foldl_min_le xs y
      · exact foldl_min_le_mem xs x y hy

/- ---------------- Helper lemmas: quantity bounds ---------------- -/

lemma extractQuantityGo_ge_one (text : List Char) :
    ∀ fs : List (List Char → Option (List Char)), 1 ≤ extractQuantityGo text fs := by
  intro fs
  induction fs with
  | nil => simp [extractQuantityGo]
  | cons f rest ih =>
    simp only [extractQuantityGo]
    cases searchCapture f text.length text with
    | none => exact ih
    | some ds =>
      dsimp only
      by_cases h : 1 < digitsToNat ds ∧ digitsToNat ds < 1000
      · rw [if_pos h]; omega
      · rw [if_neg h]; exact ih

lemma extract_quantity_ge_one (text : List Char) : 1 ≤ extract_quantity text :=
  extractQuantityGo_ge_one text _

lemma extract_price_info_snd_ge_one (fetched : Option Page) (pv : Bool) :
    1 ≤ (extract_price_info fetched pv).2 := by
  cases fetched with
  | none => simp [extract_price_info]
  | some page =>
    by_cases h : (candidatesOf page).isEmpty
    · simp [extract_price_info, h]
    · simp [extract_price_info, h]
      exact extract_quantity_ge_one page.text

/- ---------------- Concrete inputs used by witnesses ---------------- -/

/-- A page with two prices in the text, both near the token vat. -/
def wPage : Page := ⟨[], "£100 and £120 vat".toList⟩

/-- A page with a single plain price in the text. -/
def cPage : Page := ⟨[], "£100".toList⟩

/-- An element whose class contains price but whose id attribute is absent. -/
def cexElem : Elem := ⟨some "price".toList, none, "£5".toList⟩

/-- An element whose class and id both contain price. -/
def wElem : Elem := ⟨some "price".toList, some "the Price-box".toList, "£9 inc VAT".toList⟩

/- ---------------- C1 ---------------- -/

lemma amounts_ne_nil {cs : List (ℚ × Bool)} (h : cs ≠ []) : amounts cs ≠ [] := by
  cases cs with
  | nil => exact absurd rfl h
  | cons c cs => simp [amounts]

lemma selectPrice_true_eq (cs : List (ℚ × Bool)) :
    selectPrice true cs =
      if (vatAmounts cs).isEmpty then listMax (amounts cs) else listMax (vatAmounts cs) := rfl

lemma selectPrice_false_eq (cs : List (ℚ × Bool)) :
    selectPrice false cs = listMin (amounts cs) := rfl

/-- C1: on a page whose scan produced a non-empty candidate list, the
    extractor with preferVat true returns the maximum amount among the
    VAT-marked candidates, or the maximum over all candidates when no
    candidate carries a VAT marker; with preferVat false it returns the
    minimum amount over all candidates. -/
theorem C1_selection (page : Page) (pv : Bool) (h : candidatesOf page ≠ []) :
    ∃ p, (extract_price_info (some page) pv).1 = some p ∧
      (pv = true → vatAmounts (candidatesOf page) ≠ [] →
        isMaxOf p (vatAmounts (candidatesOf page))) ∧
      (pv = true → vatAmounts (candidatesOf page) = [] →
        isMaxOf p (amounts (candidatesOf page))) ∧
      (pv = false → isMinOf p (amounts (candidatesOf page))) := by
  refine ⟨selectPrice pv (candidatesOf page), ?_, ?_, ?_, ?_⟩
  · have hne : (candidatesOf page).isEmpty = false := by
      cases hc : candidatesOf page with
      | nil => exact absurd hc h
      | cons a l => rfl
    simp [extract_price_info, hne]
  · intro hpv hv
    subst hpv
    have hvem : (vatAmounts (candidatesOf page)).isEmpty = false := by
      cases hc : vatAmounts (candidatesOf page) with
      | nil => exact absurd hc hv
      | cons a l => rfl
    rw [selectPrice_true_eq, hvem]
    simpa using listMax_isMaxOf _ hv
  · intro hpv hv
    subst hpv
    have hvem : (vatAmounts (candidatesOf page)).isEmpty = true := by
      rw [List.isEmpty_iff]; exact hv
    rw [selectPrice_true_eq, hvem]
    simpa using listMax_isMaxOf _ (amounts_ne_nil h)
  · intro hpv
    subst hpv
    rw [selectPrice_false_eq]
    exact listMin_isMinOf _ (amounts_ne_nil h)

/-- Witness for C1 at a concrete page with preferVat true. -/
theorem C1_selection_witness :
    candidatesOf wPage ≠ [] ∧
      (∃ p, (extract_price_info (some wPage) true).1 = some p ∧
        (true = true → vatAmounts (candidatesOf wPage) ≠ [] →
          isMaxOf p (vatAmounts (candidatesOf wPage))) ∧
        (true = true → vatAmounts (candidatesOf wPage) = [] →
          isMaxOf p (amounts (candidatesOf wPage))) ∧
        (true = false → isMinOf p (amounts (candidatesOf wPage)))) :=
  ⟨by decide, C1_selection wPage true (by decide)⟩

/- ---------------- C5 ---------------- -/

/-- C5: the extractor returns the pair of an absent price and quantity 1
    exactly when the fetch or parse failed or no candidate was found in
    either pass; in every other case the returned price is present. -/
theorem C5_error (fetched : Option Page) (pv : Bool) :
    (extract_price_info fetched pv = (none, 1) ↔
      fetched = none ∨ ∃ page, fetched = some page ∧ candidatesOf page = []) ∧
    ∀ page, fetched = some page → candidatesOf page ≠ [] →
      ((extract_price_info fetched pv).1).isSome = true := by
  constructor
  · cases fetched with
    | none => simp [extract_price_info]
    | some page =>
      by_cases h : (candidatesOf page).isEmpty
      · rw [List.isEmpty_iff] at h
        simp [extract_price_info, h]
      · have h' : candidatesOf page ≠ [] := by
          rw [List.isEmpty_iff] at h; exact h
        have hne : (candidatesOf page).isEmpty = false := by
          cases hc : candidatesOf page with
          | nil => exact absurd hc h'
          | cons a l => rfl
        simp [extract_price_info, hne, h']
  · intro page hf hc
    subst hf
    have hne : (candidatesOf page).isEmpty = false := by
      cases hcc : candidatesOf page with
      | nil => exact absurd hcc hc
      | cons a l => rfl
    simp [extract_price_info, hne]

/-- Witness for C5: a failed fetch yields an absent price and quantity 1. -/
theorem C5_error_witness : extract_price_info none true = (none, 1) :=
  (C5_error none true).1.mpr (Or.inl rfl)

/- ---------------- C6 ---------------- -/

/-- C6: the per-unit wrapper returns absent when the extracted price is
    absent, and otherwise the price divided by max(quantity, 1). -/
theorem C6_normalize (fetched : Option Page) (pv : Bool) :
    ((extract_price_info fetched pv).1 = none → extract_price_from_url fetched pv = none) ∧
    ∀ p : ℚ, (extract_price_info fetched pv).1 = some p →
      extract_price_from_url fetched pv =
        some (p / ((max (extract_price_info fetched pv).2 1 : Nat) : ℚ)) := by
  constructor
  · intro h
    simp [extract_price_from_url, perUnit, h]
  · intro p h
    simp [extract_price_from_url, perUnit, h]

/-- Witness for C6 at a concrete page holding one price. -/
theorem C6_normalize_witness :
    extract_price_from_url (some cPage) false =
      some ((100 : ℚ) / ((max (extract_price_info (some cPage) false).2 1 : Nat) : ℚ)) :=
  (C6_normalize (some cPage) false).2 100 (by decide)

/- ---------------- C8 ---------------- -/

/-- C8: dividing a present total by a quantity of at least 1 and
    multiplying back by the quantity restores the total exactly. -/
theorem C8_roundtrip (total : ℚ) (qty : Nat) (h : 1 ≤ qty) :
    ∃ r, perUnit (some total) qty = some r ∧ r * (qty : ℚ) = total := by
  refine ⟨total / (qty : ℚ), ?_, ?_⟩
  · simp [perUnit, Nat.max_eq_left h]
  · have hq : (qty : ℚ) ≠ 0 := by
      have : 0 < qty := h
      exact_mod_cast Nat.pos_iff_ne_zero.mp this
    exact div_mul_cancel₀ total hq

/-- Witness for C8 at total 500 and quantity 20. -/
theorem C8_roundtrip_witness :
    ∃ r, perUnit (some (500 : ℚ)) 20 = some r ∧ r * ((20 : Nat) : ℚ) = 500 :=
  C8_roundtrip 500 20 (by decide)

/- ---------------- C10 ---------------- -/

/-- C10: the quantity of every extraction result is at least 1, the
    defensive divisor max(quantity, 1) equals the quantity itself and is
    non-zero, and the per-unit price is always the price divided by the
    extracted quantity. -/
theorem C10_safety (fetched : Option Page) (pv : Bool) :
    1 ≤ (extract_price_info fetched pv).2 ∧
    max (extract_price_info fetched pv).2 1 = (extract_price_info fetched pv).2 ∧
    ((extract_price_info fetched pv).2 : ℚ) ≠ 0 ∧
    extract_price_from_url fetched pv =
      ((extract_price_info fetched pv).1).map
        (fun p => p / ((extract_price_info fetched pv).2 : ℚ)) := by
  have hq := extract_price_info_snd_ge_one fetched pv
  have hmax : max (extract_price_info fetched pv).2 1 = (extract_price_info fetched pv).2 :=
    Nat.max_eq_left hq
  refine ⟨hq, hmax, ?_, ?_⟩
  · have : 0 < (extract_price_info fetched pv).2 := hq
    exact_mod_cast Nat.pos_iff_ne_zero.mp this
  · cases hp : (extract_price_info fetched pv).1 with
    | none => simp [extract_price_from_url, perUnit, hp]
    | some p => simp [extract_price_from_url, perUnit, hp, hmax]

/- ---------------- C3 ---------------- -/

/-- C3 counterexample: the packaging pattern captures only the first three
    digits of 1200, so the result is 120, not the claimed default 1. -/
theorem C3_counterexample :
    extract_quantity "Box of 1200 rounds".toList ≠ 1 ∧
      extract_quantity "Box of 1200 rounds".toList = 120 := by
  constructor
  · decide
  · decide

/-- C3 amended: extractQuantity applied to the text Box of 1200 rounds
    returns 120: the packaging pattern captures the first three digits of
    1200, and 120 lies strictly between 1 and 1000. -/
theorem C3_amended : extract_quantity "Box of 1200 rounds".toList = 120 := by
  decide

/- ---------------- C9 ---------------- -/

/-- C9 counterexample: on a column whose non-empty cells below the header
    are a label, a reference URL and one competitor URL, the code takes the
    second non-empty cell as the reference, not the first as claimed. -/
theorem C9_counterexample :
    processColumn [some (0 : Nat), some 1, some 2] = some (1, [2]) ∧
      specColumn [some (0 : Nat), some 1, some 2] = some (0, [1, 2]) ∧
      processColumn [some (0 : Nat), some 1, some 2] ≠
        specColumn [some (0 : Nat), some 1, some 2] := by
  refine ⟨rfl, rfl, ?_⟩
  decide

/-- C9 amended: the column reader skips the first non-empty cell below the
    header (the label row), treats the second non-empty cell as the
    reference URL and all later non-empty cells as competitor URLs, and
    skips columns with fewer than two non-empty cells. -/
theorem C9_amended {α : Type} (cells : List (Option α)) :
    (∀ (lab gc : α) (comps : List α), cells.filterMap id = lab :: gc :: comps →
      processColumn cells = some (gc, comps)) ∧
    ((cells.filterMap id).length < 2 → processColumn cells = none) := by
  constructor
  · intro lab gc comps h
    simp [processColumn, h]
  · intro h
    unfold processColumn
    cases hc : cells.filterMap id with
    | nil => rfl
    | cons a l =>
      cases l with
      | nil => rfl
      | cons b l2 =>
        rw [hc] at h
        simp at h
        omega

/-- Witness for C9 amended at a concrete two-cell column. -/
theorem C9_amended_witness :
    processColumn [some (5 : Nat), none, some 7] = some (7, []) :=
  (C9_amended [some (5 : Nat), none, some 7]).1 5 7 [] (by decide)

/- ---------------- C4 ---------------- -/

/-- Range filter applied to a captured digit group: the value is kept only
    when strictly between 1 and 1000. -/
def rangeQty (ds : List Char) : Option Nat :=
  if 1 < digitsToNat ds ∧ digitsToNat ds < 1000 then some (digitsToNat ds) else none

lemma extractQuantityGo_eq (text : List Char)
    (fs : List (List Char → Option (List Char))) :
    extractQuantityGo text fs =
      ((fs.map (fun f => (searchCapture f text.length text).bind rangeQty)).foldr
        (fun o acc => o <|> acc) none).getD 1 := by
  induction fs with
  | nil => rfl
  | cons f rest ih =>
    simp only [List.map_cons, List.foldr_cons, extractQuantityGo]
    cases h : searchCapture f text.length text with
    | none =>
      dsimp only
      rw [ih]
      simp
    | some ds =>
      dsimp only
      by_cases hr : 1 < digitsToNat ds ∧ digitsToNat ds < 1000
      · rw [if_pos hr]
        simp [rangeQty, hr]
      · rw [if_neg hr]
        rw [ih]
        simp [rangeQty, hr]

/-- C4: the quantity extractor tries its three patterns in fixed priority
    order; the first pattern whose leftmost match captures a number
    strictly between 1 and 1000 supplies the result, an out-of-range value
    falls through to the next pattern, and the default is 1. -/
theorem C4_priority (t : List Char) :
    extract_quantity t =
      (((searchCapture matchQty1At t.length t).bind rangeQty <|>
        (searchCapture matchQty2At t.length t).bind rangeQty <|>
        (searchCapture matchQty3At t.length t).bind rangeQty).getD 1) := by
  show extractQuantityGo t [matchQty1At, matchQty2At, matchQty3At] =
    (((searchCapture matchQty1At t.length t).bind rangeQty <|>
      (searchCapture matchQty2At t.length t).bind rangeQty <|>
      (searchCapture matchQty3At t.length t).bind rangeQty).getD 1)
  rw [extractQuantityGo_eq]
  simp only [List.map_cons, List.map_nil, List.foldr_cons, List.foldr_nil]
  generalize (searchCapture matchQty1At t.length t).bind rangeQty = o1
  generalize (searchCapture matchQty2At t.length t).bind rangeQty = o2
  generalize (searchCapture matchQty3At t.length t).bind rangeQty = o3
  cases o1 <;> cases o2 <;> cases o3 <;> rfl

/- ---------------- C2 ---------------- -/

/-- C2 counterexample: an element whose class attribute contains price,
    whose id attribute is absent, and whose own text holds a currency
    match produces no structured candidate, because the attribute
    dictionary passed to find_all requires every listed attribute filter
    to match. -/
theorem C2_counterexample :
    hasPriceToken cexElem.cls = true ∧ (priceSearch cexElem.text).isSome = true ∧
      structCandOf cexElem = none ∧ candidatesOf ⟨[cexElem], []⟩ = [] :=
  ⟨by decide, by decide, by decide, by decide⟩

/-- C2 amended: a structured candidate is emitted for a DOM element exactly
    when both its class attribute and its id attribute contain the token
    price case-insensitively and the element text holds a currency-amount
    match; the candidate then carries the first matched amount and a VAT
    marker recording whether vat occurs anywhere in the element text. -/
theorem C2_amended (e : Elem) (c : ℚ × Bool) :
    structCandOf e = some c ↔
      hasPriceToken e.cls = true ∧ hasPriceToken e.idAttr = true ∧
        ∃ cap, priceSearch e.text = some cap ∧
          c = (parseAmount cap, containsVat e.text) := by
  unfold structCandOf
  by_cases h1 : hasPriceToken e.cls = true
  · by_cases h2 : hasPriceToken e.idAttr = true
    · rw [if_pos (by rw [h1, h2]; rfl)]
      cases hs : priceSearch e.text with
      | none => simp [h1, h2]
      | some cap => simp [h1, h2, eq_comm]
    · rw [if_neg (by simp [h2])]
      simp [h2]
  · rw [if_neg (by simp [h1])]
    simp [h1]

/-- Witness for C2 amended: an element carrying price in both attributes
    and one currency match in its text yields exactly one candidate with
    the VAT marker set. -/
theorem C2_amended_witness : structCandOf wElem = some ((9 : ℚ), true) :=
  (C2_amended wElem ((9 : ℚ), true)).mpr
    ⟨by decide, by decide, ['9'], by decide, by decide⟩

/- ---------------- C7: shape of captured amounts ---------------- -/

/-- Shape of the integral part of a capture: digits and commas only. -/
def numShape (num : List Char) : Prop := ∀ c ∈ num, c.isDigit = true ∨ c = ','

/-- Shape of the decimal part of a capture: empty, or a dot and two digits. -/
def decShape (dec : List Char) : Prop :=
  dec = [] ∨ ∃ a b, dec = ['.', a, b] ∧ a.isDigit = true ∧ b.isDigit = true

lemma takeExactDigits_digits :
    ∀ (k : Nat) (s d r : List Char), takeExactDigits k s = some (d, r) →
      ∀ c ∈ d, c.isDigit = true := by
  intro k
  induction k with
  | zero =>
    intro s d r h c hc
    simp only [takeExactDigits, Option.some.injEq, Prod.mk.injEq] at h
    rw [← h.1] at hc
    cases hc
  | succ k ih =>
    intro s d r h c hc
    cases s with
    | nil => simp [takeExactDigits] at h
    | cons a as =>
      simp only [takeExactDigits] at h
      by_cases ha : a.isDigit = true
      · rw [if_pos ha] at h
        cases hrec : takeExactDigits k as with
        | none => rw [hrec] at h; simp at h
        | some pr =>
          obtain ⟨d', r'⟩ := pr
          rw [hrec] at h
          simp only [Option.some.injEq, Prod.mk.injEq] at h
          rw [← h.1] at hc
          rcases List.mem_cons.mp hc with rfl | hcm
          · exact ha
          · exact ih as d' r' hrec c hcm
      · rw [if_neg ha] at h
        simp at h

lemma commaGroupsF_shape :
    ∀ (fuel : Nat) (s : List Char) (c : Char), c ∈ (commaGroupsF fuel s).1 →
      c.isDigit = true ∨ c = ',' := by
  intro fuel
  induction fuel with
  | zero => intro s c hc; simp [commaGroupsF] at hc
  | succ fuel ih =>
    intro s c hc
    rcases s with _ | ⟨c0, _ | ⟨a, _ | ⟨b, _ | ⟨d, rest⟩⟩⟩⟩
    · simp [commaGroupsF] at hc
    · simp [commaGroupsF] at hc
    · simp [commaGroupsF] at hc
    · simp [commaGroupsF] at hc
    · simp only [commaGroupsF] at hc
      by_cases hcond : (c0 = ',' && a.isDigit && b.isDigit && d.isDigit) = true
      · rw [if_pos hcond] at hc
        have hparts := hcond
        simp only [Bool.and_eq_true, decide_eq_true_eq] at hparts
        simp only [List.mem_cons] at hc
        rcases hc with rfl | rfl | rfl | rfl | hmem
        · exact Or.inr hparts.1.1.1
        · exact Or.inl hparts.1.1.2
        · exact Or.inl hparts.1.2
        · exact Or.inl hparts.2
        · exact ih rest c hmem
      · rw [if_neg hcond] at hc
        simp at hc

lemma altAWith_shape (k : Nat) (s num r : List Char)
    (h : altAWith k s = some (num, r)) : numShape num := by
  unfold altAWith at h
  cases ht : takeExactDigits k s with
  | none => rw [ht] at h; simp at h
  | some pr =>
    obtain ⟨d, r1⟩ := pr
    rw [ht] at h
    dsimp only at h
    cases hg : commaGroups r1 with
    | mk g r2 =>
      rw [hg] at h
      cases g with
      | nil => simp at h
      | cons g0 gs =>
        simp only [Option.some.injEq, Prod.mk.injEq] at h
        intro c hc
        rw [← h.1] at hc
        rcases List.mem_append.mp hc with hcd | hcg
        · exact Or.inl (takeExactDigits_digits k s d r1 ht c hcd)
        · have hG : (commaGroupsF r1.length r1).1 = g0 :: gs := by
            have : commaGroups r1 = (g0 :: gs, r2) := hg
            unfold commaGroups at this
            rw [this]
          exact commaGroupsF_shape r1.length r1 c (by rw [hG]; exact hcg)

lemma matchAltA_shape (s num r : List Char) (h : matchAltA s = some (num, r)) :
    numShape num := by
  unfold matchAltA at h
  cases h3 : altAWith 3 s with
  | some pr =>
    obtain ⟨n3, r3⟩ := pr
    rw [h3] at h
    simp only [Option.some_orElse, Option.some.injEq, Prod.mk.injEq] at h
    obtain ⟨rfl, rfl⟩ := h
    exact altAWith_shape 3 s _ _ h3
  | none =>
    rw [h3] at h
    simp only [Option.none_orElse] at h
    cases h2 : altAWith 2 s with
    | some pr =>
      obtain ⟨n2, r2⟩ := pr
      rw [h2] at h
      simp only [Option.some_orElse, Option.some.injEq, Prod.mk.injEq] at h
      obtain ⟨rfl, rfl⟩ := h
      exact altAWith_shape 2 s _ _ h2
    | none =>
      rw [h2] at h
      simp only [Option.none_orElse] at h
      exact altAWith_shape 1 s _ _ h

lemma matchAltB_shape (s num r : List Char) (h : matchAltB s = some (num, r)) :
    numShape num := by
  unfold matchAltB at h
  by_cases he : (s.takeWhile Char.isDigit).isEmpty = true
  · rw [if_pos he] at h; simp at h
  · rw [if_neg he] at h
    simp only [Option.some.injEq, Prod.mk.injEq] at h
    intro c hc
    rw [← h.1] at hc
    exact Or.inl (List.mem_takeWhile_imp hc)

lemma matchDecimals_shape (s : List Char) : decShape (matchDecimals s).1 := by
  rcases s with _ | ⟨a, _ | ⟨b, _ | ⟨c, rest⟩⟩⟩
  · exact Or.inl rfl
  · exact Or.inl rfl
  · exact Or.inl rfl
  · simp only [matchDecimals]
    by_cases hcond : (a = '.' && b.isDigit && c.isDigit) = true
    · rw [if_pos hcond]
      have hparts := hcond
      simp only [Bool.and_eq_true, decide_eq_true_eq] at hparts
      exact Or.inr ⟨b, c, by rw [hparts.1.1], hparts.1.2, hparts.2⟩
    · rw [if_neg hcond]
      exact Or.inl rfl

lemma matchAmount_shape (s cap r : List Char) (h : matchAmount s = some (cap, r)) :
    ∃ num dec, cap = num ++ dec ∧ numShape num ∧ decShape dec := by
  unfold matchAmount at h
  cases hab : (matchAltA s <|> matchAltB s) with
  | none => rw [hab] at h; simp at h
  | some pr =>
    obtain ⟨num, r1⟩ := pr
    rw [hab] at h
    dsimp only at h
    cases hd : matchDecimals r1 with
    | mk dec r2 =>
      rw [hd] at h
      simp only [Option.some.injEq, Prod.mk.injEq] at h
      refine ⟨num, dec, h.1.symm, ?_, ?_⟩
      · cases ha : matchAltA s with
        | some pr2 =>
          obtain ⟨n2, r2'⟩ := pr2
          rw [ha] at hab
          simp only [Option.some_orElse, Option.some.injEq, Prod.mk.injEq] at hab
          obtain ⟨rfl, rfl⟩ := hab
          exact matchAltA_shape s _ _ ha
        | none =>
          rw [ha] at hab
          simp only [Option.none_orElse] at hab
          exact matchAltB_shape s _ _ hab
      · have hds := matchDecimals_shape r1
        rw [hd] at hds
        exact hds

/- ---------------- C7: parsing a well-shaped capture ---------------- -/

lemma parseAmount_no_dot (s : List Char)
    (h : (s.filter (fun c => c ≠ ',')).dropWhile (fun c => c ≠ '.') = []) :
    parseAmount s =
      (digitsToNat ((s.filter (fun c => c ≠ ',')).takeWhile (fun c => c ≠ '.')) : ℚ) := by
  unfold parseAmount
  dsimp only
  rw [h]

lemma parseAmount_dot (s : List Char) (d : Char) (fp : List Char)
    (h : (s.filter (fun c => c ≠ ',')).dropWhile (fun c => c ≠ '.') = d :: fp) :
    parseAmount s =
      (digitsToNat ((s.filter (fun c => c ≠ ',')).takeWhile (fun c => c ≠ '.')) : ℚ) +
        (digitsToNat fp : ℚ) / (10 : ℚ) ^ fp.length := by
  unfold parseAmount
  dsimp only
  rw [h]

lemma dropWhile_all (p : Char → Bool) :
    ∀ l : List Char, (∀ c ∈ l, p c = true) → l.dropWhile p = [] := by
  intro l
  induction l with
  | nil => intro h; rfl
  | cons a as ih =>
    intro h
    have ha : p a = true := h a (List.mem_cons_self a as)
    rw [List.dropWhile_cons_of_pos ha]
    exact ih (fun c hc => h c (List.mem_cons_of_mem a hc))

lemma dropWhile_append_all (p : Char → Bool) :
    ∀ (xs ys : List Char), (∀ c ∈ xs, p c = true) →
      (xs ++ ys).dropWhile p = ys.dropWhile p := by
  intro xs
  induction xs with
  | nil => intro ys h; rfl
  | cons x xs ih =>
    intro ys h
    have hx : p x = true := h x (List.mem_cons_self x xs)
    rw [List.cons_append, List.dropWhile_cons_of_pos hx]
    exact ih ys fun c hc => h c (List.mem_cons_of_mem x hc)

lemma digit_decide_ne (c : Char) (hc : c.isDigit = true) (x : Char)
    (hx : x.isDigit = false) : (decide (c ≠ x)) = true := by
  simp only [decide_eq_true_eq]
  intro hcx
  rw [hcx] at hc
  rw [hc] at hx
  cases hx

lemma goodAmount_parseAmount (cap : List Char)
    (h : ∃ num dec, cap = num ++ dec ∧ numShape num ∧ decShape dec) :
    goodAmount (parseAmount cap) := by
  obtain ⟨num, dec, rfl, hnum, hdec⟩ := h
  have hndD : ∀ c ∈ num.filter (fun c => c ≠ ','), c.isDigit = true := by
    intro c hc
    have hmem : c ∈ num := (List.mem_filter.mp hc).1
    have hne : (decide (c ≠ ',')) = true := (List.mem_filter.mp hc).2
    rcases hnum c hmem with hd | hcomma
    · exact hd
    · subst hcomma; simp at hne
  have hndNoDot : ∀ c ∈ num.filter (fun c => c ≠ ','), (fun c => decide (c ≠ '.')) c = true :=
    fun c hc => digit_decide_ne c (hndD c hc) '.' (by decide)
  rcases hdec with rfl | ⟨a, b, rfl, hA, hB⟩
  · have hd0 : (num ++ ([] : List Char)).filter (fun c => c ≠ ',') =
        num.filter (fun c => c ≠ ',') := by simp
    have hdrop : ((num ++ ([] : List Char)).filter (fun c => c ≠ ',')).dropWhile
        (fun c => c ≠ '.') = [] := by
      rw [hd0]
      exact dropWhile_all _ _ hndNoDot
    rw [parseAmount_no_dot _ hdrop]
    constructor
    · positivity
    · refine ⟨100 * digitsToNat (((num ++ ([] : List Char)).filter
        (fun c => c ≠ ',')).takeWhile (fun c => c ≠ '.')), ?_⟩
      push_cast
      rw [mul_div_cancel_left₀ _ (by norm_num : (100 : ℚ) ≠ 0)]
  · have hfd : (['.', a, b] : List Char).filter (fun c => c ≠ ',') = ['.', a, b] := by
      have ha' : (decide (a ≠ ',')) = true := digit_decide_ne a hA ',' (by decide)
      have hb' : (decide (b ≠ ',')) = true := digit_decide_ne b hB ',' (by decide)
      simp [List.filter, ha', hb']
    have hfa : (num ++ ['.', a, b]).filter (fun c => c ≠ ',') =
        num.filter (fun c => c ≠ ',') ++ ['.', a, b] := by
      rw [List.filter_append, hfd]
    have hdrop : ((num ++ ['.', a, b]).filter (fun c => c ≠ ',')).dropWhile
        (fun c => c ≠ '.') = '.' :: [a, b] := by
      rw [hfa, dropWhile_append_all _ _ _ hndNoDot]
      rw [List.dropWhile_cons_of_neg (by decide)]
    rw [parseAmount_dot _ _ _ hdrop]
    constructor
    · positivity
    · refine ⟨100 * digitsToNat (((num ++ ['.', a, b]).filter
        (fun c => c ≠ ',')).takeWhile (fun c => c ≠ '.')) + digitsToNat [a, b], ?_⟩
      have hlen : ([a, b] : List Char).length = 2 := rfl
      rw [hlen]
      push_cast
      field_simp
      ring

/- ---------------- C7: propagation to candidates ---------------- -/

lemma searchCapture_some (f : List Char → Option (List Char)) :
    ∀ (fuel : Nat) (s cap : List Char), searchCapture f fuel s = some cap →
      ∃ s', f s' = some cap := by
  intro fuel
  induction fuel with
  | zero => intro s cap h; exact ⟨s, h⟩
  | succ fuel ih =>
    intro s cap h
    simp only [searchCapture] at h
    cases hf : f s with
    | some r =>
      rw [hf] at h
      simp only [Option.some.injEq] at h
      exact ⟨s, by rw [hf, h]⟩
    | none =>
      rw [hf] at h
      cases s with
      | nil => simp at h
      | cons a t =>
        dsimp only at h
        exact ih t cap h

lemma matchPriceAt_shape (s cap r : List Char) (h : matchPriceAt s = some (cap, r)) :
    ∃ num dec, cap = num ++ dec ∧ numShape num ∧ decShape dec := by
  unfold matchPriceAt at h
  cases s with
  | nil => simp at h
  | cons c rest =>
    dsimp only at h
    by_cases hc : c = '£'
    · rw [if_pos hc] at h
      exact matchAmount_shape _ cap r h
    · rw [if_neg hc] at h
      simp at h

lemma matchPriceCapAt_shape (s cap : List Char) (h : matchPriceCapAt s = some cap) :
    ∃ num dec, cap = num ++ dec ∧ numShape num ∧ decShape dec := by
  unfold matchPriceCapAt at h
  cases hm : matchPriceAt s with
  | none => rw [hm] at h; simp at h
  | some pr =>
    obtain ⟨cap', r⟩ := pr
    rw [hm] at h
    simp only [Option.map_some', Option.some.injEq] at h
    subst h
    exact matchPriceAt_shape s cap' r hm

lemma finditerPrice_caps :
    ∀ (fuel : Nat) (s : List Char) (i : Nat) (m : Nat × Nat × List Char),
      m ∈ finditerPrice fuel s i → ∃ s' r, matchPriceAt s' = some (m.2.2, r) := by
  intro fuel
  induction fuel with
  | zero => intro s i m hm; simp [finditerPrice] at hm
  | succ fuel ih =>
    intro s i m hm
    simp only [finditerPrice] at hm
    cases hp : matchPriceAt s with
    | some pr =>
      obtain ⟨cap, rest⟩ := pr
      rw [hp] at hm
      dsimp only at hm
      rcases List.mem_cons.mp hm with rfl | hm2
      · exact ⟨s, rest, hp⟩
      · exact ih rest _ m hm2
    | none =>
      rw [hp] at hm
      cases s with
      | nil => simp at hm
      | cons a t =>
        dsimp only at hm
        exact ih t (i + 1) m hm

lemma candidatesOf_good (page : Page) : ∀ c ∈ candidatesOf page, goodAmount c.1 := by
  intro c hc
  unfold candidatesOf at hc
  rcases List.mem_append.mp hc with hstruct | hunstr
  · obtain ⟨e, he, hsome⟩ := List.mem_filterMap.mp hstruct
    unfold structCandOf at hsome
    by_cases hattr : (hasPriceToken e.cls && hasPriceToken e.idAttr) = true
    · rw [if_pos hattr] at hsome
      cases hs : priceSearch e.text with
      | none => rw [hs] at hsome; simp at hsome
      | some cap =>
        rw [hs] at hsome
        simp only [Option.some.injEq] at hsome
        have hshape : ∃ num dec, cap = num ++ dec ∧ numShape num ∧ decShape dec := by
          obtain ⟨s', hs'⟩ :=
            searchCapture_some matchPriceCapAt e.text.length e.text cap hs
          exact matchPriceCapAt_shape s' cap hs'
        rw [← hsome]
        exact goodAmount_parseAmount cap hshape
    · rw [if_neg hattr] at hsome
      simp at hsome
  · obtain ⟨m, hm, hc2⟩ := List.mem_map.mp hunstr
    obtain ⟨s', r, hmp⟩ := finditerPrice_caps _ _ _ m hm
    have hshape := matchPriceAt_shape s' m.2.2 r hmp
    rw [← hc2]
    unfold unstructCandOf
    exact goodAmount_parseAmount _ hshape

lemma selectPrice_mem (pv : Bool) (cs : List (ℚ × Bool)) (h : cs ≠ []) :
    ∃ c ∈ cs, c.1 = selectPrice pv cs := by
  cases pv with
  | false =>
    rw [selectPrice_false_eq]
    have hmem := (listMin_isMinOf (amounts cs) (amounts_ne_nil h)).1
    obtain ⟨c, hcmem, hceq⟩ := List.mem_map.mp hmem
    exact ⟨c, hcmem, hceq⟩
  | true =>
    rw [selectPrice_true_eq]
    by_cases hv : (vatAmounts cs).isEmpty = true
    · rw [if_pos hv]
      have hmem := (listMax_isMaxOf (amounts cs) (amounts_ne_nil h)).1
      obtain ⟨c, hcmem, hceq⟩ := List.mem_map.mp hmem
      exact ⟨c, hcmem, hceq⟩
    · rw [if_neg hv]
      have hvne : vatAmounts cs ≠ [] := by
        intro hnil
        exact hv (by rw [List.isEmpty_iff]; exact hnil)
      have hmem := (listMax_isMaxOf (vatAmounts cs) hvne).1
      unfold vatAmounts at hmem
      obtain ⟨c, hcmem, hceq⟩ := List.mem_map.mp hmem
      exact ⟨c, List.mem_of_mem_filter hcmem, hceq⟩

/- ---------------- C7 ---------------- -/

/-- C7: every quantity the extractor produces is a positive integer, and
    every amount emitted as a candidate or returned as the selected price
    is a non-negative decimal with at most two fractional digits as parsed
    from the source text. -/
theorem C7_invariants :
    (∀ t : List Char, 1 ≤ extract_quantity t) ∧
    (∀ (fetched : Option Page) (pv : Bool), 1 ≤ (extract_price_info fetched pv).2) ∧
    (∀ page : Page, ∀ c ∈ candidatesOf page, goodAmount c.1) ∧
    (∀ (fetched : Option Page) (pv : Bool) (p : ℚ),
      (extract_price_info fetched pv).1 = some p → goodAmount p) := by
  refine ⟨extract_quantity_ge_one, extract_price_info_snd_ge_one, candidatesOf_good, ?_⟩
  intro fetched pv p hp
  cases fetched with
  | none => simp [extract_price_info] at hp
  | some page =>
    by_cases hemp : (candidatesOf page).isEmpty = true
    · simp [extract_price_info, hemp] at hp
    · have hne : candidatesOf page ≠ [] := by
        intro hnil
        exact hemp (by rw [List.isEmpty_iff]; exact hnil)
      have hemp' : (candidatesOf page).isEmpty = false := by
        cases hi : (candidatesOf page).isEmpty with
        | false => rfl
        | true => exact absurd hi hemp
      have hp' : p = selectPrice pv (candidatesOf page) := by
        simp [extract_price_info, hemp'] at hp
        exact hp.symm
      obtain ⟨c, hcmem, hceq⟩ := selectPrice_mem pv (candidatesOf page) hne
      rw [hp', ← hceq]
      exact candidatesOf_good page c hcmem

/-- Witness for C7 at a concrete candidate of a concrete page. -/
theorem C7_invariants_witness : goodAmount ((100 : ℚ)) :=
  C7_invariants.2.2.1 wPage ((100 : ℚ), true) (by decide)
